import Mathlib

/-!
# Verification of the SimBA-hap founder-allele fitting engine

Shallow embedding of `src/simba-hap.cpp` (SimBA-hap haplotype simulator).
Floating-point quantities of the C++ code (normalized dosage distributions,
L1 distances) are modelled as exact rationals; the `FLT_MAX` sentinel used by
the greedy fitter to mark already-committed founders is modelled as `none`
in `Option ℚ`, ordered above every rational.

Conventions:
* a haplotype map is a `List (List ℕ)`: one row per sample, one founder index
  per ploidy slot (C++ `boost::multi_array<uint32_t, 2>`);
* a founder allele vector is a `List ℕ` of 0/1 values (C++ `vector<uint16_t>`);
* a dosage distribution is a `List` of `p + 1` entries (C++ `array<_, p+1>`).
-/

/-! ## Option-valued distances

The C++ code stores probe distances in a `vector<float>`, using
`numeric_limits<float>::max()` for founders already at 1.  We model that
sentinel as `none`, strictly above every `some q`. -/

/-- Strict comparison on sentinel-extended distances: `none` behaves as the
C++ `FLT_MAX` sentinel, i.e. it is above every finite distance and not below
itself. -/
def lt_opt (a b : Option ℚ) : Bool :=
  match a, b with
  | some x, some y => decide (x < y)
  | some _, none => true
  | none, _ => false

/-- `a` is less than or equal to `b` in the sentinel-extended order. -/
def le_opt (a b : Option ℚ) : Bool :=
  !(lt_opt b a)

/-- Accumulator pass of C++ `std::min_element`: scan the remaining list,
keeping the first strictly smaller element (ties keep the earlier index). -/
def min_el_aux : List (Option ℚ) → ℕ → ℕ × Option ℚ → ℕ × Option ℚ
  | [], _, best => best
  | x :: xs, i, best => min_el_aux xs (i + 1) (if lt_opt x best.2 then (i, x) else best)

/-- Index and value of the first minimum of a list of sentinel-extended
distances (C++ `std::min_element` over the `distances` vector). -/
def min_element (l : List (Option ℚ)) : ℕ × Option ℚ :=
  min_el_aux l 0 (0, none)

/-! ## Genotypes (C++ `read_genotype`, `is_unknown`, `get_ploidy`, `get_dosage`) -/

/-- C++ `read_genotype`: read the first colon-separated field of a VCF
genotype column, then remove the `/` and `|` allele separators. -/
def read_genotype (genotype_info : List Char) : List Char :=
  ((genotype_info.takeWhile (fun c => c ≠ ':')).filter (fun c => c ≠ '/')).filter
    (fun c => c ≠ '|')

/-- C++ `get_ploidy`: the number of allele characters of a parsed genotype. -/
def get_ploidy (genotype : List Char) : ℕ :=
  genotype.length

/-- C++ `is_unknown`: a genotype is unknown iff its **last** allele character
is `'.'` (`genotype.back() == '.'`). -/
def is_unknown (genotype : List Char) : Bool :=
  genotype.getLastD ' ' = '.'

/-- C++ `get_dosage`: number of allele characters equal to `value`. -/
def get_dosage (genotype : List Char) (value : Char) : ℕ :=
  genotype.count value

/-! ## Dosage distributions -/

/-- Dosage of one sample: the number of ploidy slots whose founder carries
allele 1 (C++ `get_dosage(genotype, 1u)` on the sample-allele view). -/
def sample_dosage (founders_alts : List ℕ) (row : List ℕ) : ℕ :=
  (row.map (fun j => founders_alts.getD j 0)).count 1

/-- C++ `make_dosages_distribution`: histogram of sample dosages
`0, 1, ..., p`.  The C++ code increments bucket `get_dosage(genotype)` per
sample; since every row has `p` slots, all dosages lie in `0..p` and the
histogram equals this per-bucket count. -/
def make_dosages_distribution (p : ℕ) (founders_alts : List ℕ)
    (haplotypes_m : List (List ℕ)) : List ℕ :=
  (List.range (p + 1)).map (fun d => (haplotypes_m.map (sample_dosage founders_alts)).count d)

/-- Cast a dosage histogram to rationals (the C++ code mixes `uint32_t`
histograms with `float` targets through implicit conversion). -/
def dosages_q (l : List ℕ) : List ℚ :=
  l.map (fun x => (x : ℚ))

/-- C++ `normalize_dosages_distribution`: rescale every entry by
`n_samples / sum`. -/
def normalize_dosages_distribution (dosages_d : List ℚ) (n_samples : ℕ) : List ℚ :=
  dosages_d.map (fun d => n_samples * d / dosages_d.sum)

/-- Executable absolute value on ℚ (C++ `std::abs`). -/
def qabs (x : ℚ) : ℚ :=
  if x < 0 then -x else x

theorem qabs_eq_abs (x : ℚ) : qabs x = |x| := by
  unfold qabs
  split
  · next h => rw [abs_of_neg h]
  · next h => rw [abs_of_nonneg (not_lt.mp h)]

/-- C++ `l1_norm`: sum of elementwise absolute differences. -/
def l1_norm (a b : List ℚ) : ℚ :=
  ((a.zip b).map (fun x => qabs (x.1 - x.2))).sum

/-! ## Greedy descent fitter (C++ `descent_fitting::fit`) -/

/-- One probe of the greedy fitter: founders already at 1 get the `FLT_MAX`
sentinel (`none`); a founder at 0 is tentatively set to 1, the distance of
the resulting distribution to the target is computed, and the founder is
reverted. -/
def probe (p : ℕ) (haplotypes_m : List (List ℕ)) (dosages_d_in : List ℚ)
    (founders_alts : List ℕ) (j : ℕ) : Option ℚ :=
  if founders_alts.getD j 0 = 1 then none
  else some (l1_norm dosages_d_in
    (dosages_q (make_dosages_distribution p (founders_alts.set j 1) haplotypes_m)))

/-- The `distances` vector of one iteration: one probe per founder. -/
def probes (p : ℕ) (haplotypes_m : List (List ℕ)) (dosages_d_in : List ℚ)
    (founders_alts : List ℕ) : List (Option ℚ) :=
  (List.range founders_alts.length).map (probe p haplotypes_m dosages_d_in founders_alts)

/-- Main loop of `descent_fitting::fit` (`for (ones = 0; ones < n_founders; ...)`,
modelled with the remaining iteration count as fuel).  Each iteration probes
every founder, takes the minimum probed distance, stops when the current
distance is strictly below it, and otherwise commits the flip at the
minimizing index. -/
def descent_loop (p : ℕ) (haplotypes_m : List (List ℕ)) (dosages_d_in : List ℚ) :
    ℕ → List ℕ → ℚ → List ℕ × ℚ
  | 0, founders_alts, distance => (founders_alts, distance)
  | fuel + 1, founders_alts, distance =>
    let m := min_element (probes p haplotypes_m dosages_d_in founders_alts)
    if lt_opt (some distance) m.2 then (founders_alts, distance)
    else descent_loop p haplotypes_m dosages_d_in fuel (founders_alts.set m.1 1) (m.2.getD 0)

/-- C++ `descent_fitting::fit`: zero the founder allele vector, compute the
distance of the all-zero distribution to the target, then run the descent
loop for at most `n_founders` iterations.  Returns the final vector and the
achieved distance. -/
def descent_fit (p : ℕ) (haplotypes_m : List (List ℕ)) (dosages_d_in : List ℚ)
    (founders_alts_in : List ℕ) : List ℕ × ℚ :=
  let founders_alts := List.replicate founders_alts_in.length 0
  let distance := l1_norm dosages_d_in
    (dosages_q (make_dosages_distribution p founders_alts haplotypes_m))
  descent_loop p haplotypes_m dosages_d_in founders_alts.length founders_alts distance

/-! ## Exact MIP fitter (C++ `mip_fitting::init` / `mip_fitting::fit`)

The LEMON solver itself is external; we model the mixed-integer program the
code builds: its decision variables, its feasible region (the rows added in
`init` plus the two per-marker rows added in `fit`), and its objective.
`mip_fitting::fit` asserts `mip.type() == OPTIMAL` and reads back the
objective value (the returned distance), the founder alleles `f`, and the
dosage counts `d` of an optimal assignment. -/

/-- The decision variables of the MIP built by `mip_fitting::init` for
`ns` samples, ploidy `p` and `nf` founders: the linearization variables `z`,
the dosage counts `d`, the per-sample absolute errors `e`, the per-sample
dosage indicators `ind` (C++ `mip_indicators`), and the founder alleles `f`
(C++ `mip_alts`).  Integer columns are `ℤ`-valued, real columns `ℚ`-valued. -/
structure mip_assignment (p ns nf : ℕ) where
  z : Fin (p + 1) → ℚ
  d : Fin (p + 1) → ℤ
  e : Fin ns → Fin (p + 1) → ℚ
  ind : Fin ns → Fin (p + 1) → ℤ
  f : Fin nf → ℤ

/-- `Σ h(f)` of one sample: the sum of the founder alleles over the sample's
ploidy slots (C++ `sample_sum`). -/
def mip_sample_sum {p ns nf : ℕ} (haplotypes_m : Fin ns → Fin p → Fin nf)
    (A : mip_assignment p ns nf) (s : Fin ns) : ℤ :=
  ∑ h : Fin p, A.f (haplotypes_m s h)

/-- The feasible region of the MIP: column bounds and the rows added by
`mip_fitting::init`, plus the two per-marker rows `d - T ≤ z` and
`T - d ≤ z` added by `mip_fitting::fit`. -/
def mip_feasible {p ns nf : ℕ} (haplotypes_m : Fin ns → Fin p → Fin nf)
    (dosages_d_in : Fin (p + 1) → ℚ) (A : mip_assignment p ns nf) : Prop :=
  (∀ l, 0 ≤ A.z l) ∧
  (∀ l, 0 ≤ A.d l) ∧
  (∀ s l, 0 ≤ A.e s l) ∧
  (∀ s l, 0 ≤ A.ind s l) ∧
  (∀ j, 0 ≤ A.f j ∧ A.f j ≤ 1) ∧
  (∀ l, A.d l = ∑ s : Fin ns, A.ind s l) ∧
  (∀ s, ∑ l : Fin (p + 1), A.ind s l = 1) ∧
  (∀ (s : Fin ns) (l : Fin (p + 1)),
    ((l : ℕ) : ℚ) - (mip_sample_sum haplotypes_m A s : ℚ) ≤ A.e s l) ∧
  (∀ (s : Fin ns) (l : Fin (p + 1)),
    (mip_sample_sum haplotypes_m A s : ℚ) - ((l : ℕ) : ℚ) ≤ A.e s l) ∧
  (∀ s l, A.e s l ≤ (p : ℚ) * (1 - (A.ind s l : ℚ))) ∧
  (∀ l, (A.d l : ℚ) - dosages_d_in l ≤ A.z l) ∧
  (∀ l, dosages_d_in l - (A.d l : ℚ) ≤ A.z l)

/-- The objective `Σ z` minimized by `mip_fitting`. -/
def mip_objective {p ns nf : ℕ} (A : mip_assignment p ns nf) : ℚ :=
  ∑ l : Fin (p + 1), A.z l

/-- An optimal assignment: feasible, of minimal objective.  The code asserts
`mip.type() == OPTIMAL` and reads distance and founder alleles from such an
assignment. -/
def mip_optimal {p ns nf : ℕ} (haplotypes_m : Fin ns → Fin p → Fin nf)
    (dosages_d_in : Fin (p + 1) → ℚ) (A : mip_assignment p ns nf) : Prop :=
  mip_feasible haplotypes_m dosages_d_in A ∧
    ∀ B, mip_feasible haplotypes_m dosages_d_in B → mip_objective A ≤ mip_objective B

/-- The dosage distribution induced by the founder alleles of an assignment:
the number of samples whose slot-sum equals each dosage level. -/
def mip_induced_distribution {p ns nf : ℕ} (haplotypes_m : Fin ns → Fin p → Fin nf)
    (A : mip_assignment p ns nf) (l : Fin (p + 1)) : ℕ :=
  (Finset.univ.filter (fun s => mip_sample_sum haplotypes_m A s = (l : ℤ))).card

/-! ## VCF reading (C++ `read_vcf`) -/

/-- The parts of a `seqan::VcfRecord` the dosage loader inspects: the ALT
string (a `,` marks a polyallelic record) and the per-sample genotype
columns. -/
structure vcf_record where
  alt : List Char
  genotypeInfos : List (List Char)

/-- The error message thrown by `read_vcf` on a ploidy mismatch. -/
def ploidy_error : String :=
  "Input ploidy does not match VCF genotypes"

/-- Increment one bucket of a dosage histogram
(C++ `dosages_d[get_dosage(genotype, '1')]++`). -/
def bump (dosages_d : List ℕ) (k : ℕ) : List ℕ :=
  dosages_d.set k (dosages_d.getD k 0 + 1)

/-- Per-record genotype loop of `read_vcf`: skip unknown genotypes, throw on
a ploidy mismatch, otherwise count the genotype's dosage. -/
def process_genotypes (n_ploidy : ℕ) :
    List (List Char) → List ℕ → Except String (List ℕ)
  | [], dosages_d => .ok dosages_d
  | genotype_info :: rest, dosages_d =>
    let genotype := read_genotype genotype_info
    if is_unknown genotype then process_genotypes n_ploidy rest dosages_d
    else if get_ploidy genotype ≠ n_ploidy then .error ploidy_error
    else process_genotypes n_ploidy rest (bump dosages_d (get_dosage genotype '1'))

/-- C++ `read_vcf` record loop: skip polyallelic records (ALT contains a
comma), accumulate one dosage histogram per remaining record, and propagate
the ploidy-mismatch exception. -/
def read_vcf (n_ploidy : ℕ) : List vcf_record → Except String (List (List ℕ))
  | [] => .ok []
  | record :: rest =>
    if record.alt.contains ',' then read_vcf n_ploidy rest
    else do
      let dosages_d ← process_genotypes n_ploidy record.genotypeInfos
        (List.replicate (n_ploidy + 1) 0)
      let rest_d ← read_vcf n_ploidy rest
      pure (dosages_d :: rest_d)

/-! ## Founder and haplotype-map simulation -/

/-- Message of the failed `SEQAN_ASSERT_GT(n_samples, 0u)`. -/
def assert_samples_error : String :=
  "Assertion failed: n_samples > 0"

/-- Message of the failed `SEQAN_ASSERT_LEQ(n_founders, n_samples * n_ploidy)`. -/
def assert_founders_error : String :=
  "Assertion failed: n_founders <= n_samples * n_ploidy"

/-- Message of the failed `SEQAN_ASSERT_EQ(sum(founders_d), n_samples * n_ploidy)`. -/
def assert_map_error : String :=
  "Assertion failed: sum(founders_d) == n_samples * n_ploidy"

/-- The increment loop of `simulate_founders_distribution`: each generator
draw (a founder index) gains one extra haplotype. -/
def apply_draws : List ℕ → List ℕ → List ℕ
  | founders_d, [] => founders_d
  | founders_d, draw :: rest =>
    apply_draws (founders_d.set draw (founders_d.getD draw 0 + 1)) rest

/-- C++ `simulate_founders_distribution`: assert the configuration, give
every founder multiplicity 1, then distribute the remaining
`n_samples * n_ploidy - n_founders` haplotypes according to the generator
draws.  The `SEQAN_ASSERT`s are modelled as fatal checks. -/
def simulate_founders_distribution (n_founders n_samples n_ploidy : ℕ)
    (draws : List ℕ) : Except String (List ℕ) :=
  if ¬ 0 < n_samples then .error assert_samples_error
  else if ¬ n_founders ≤ n_samples * n_ploidy then .error assert_founders_error
  else .ok (apply_draws (List.replicate n_founders 1) draws)

/-- The `fill_n` loop of `simulate_haplotypes_map`, starting at founder
index `i`: founder `f` occupies `founders_d[f]` consecutive flat slots. -/
def fill_founders : List ℕ → ℕ → List ℕ
  | [], _ => []
  | mult :: rest, i => List.replicate mult i ++ fill_founders rest (i + 1)

/-- The flat array of `simulate_haplotypes_map` before shuffling. -/
def flatten_founders (founders_d : List ℕ) : List ℕ :=
  fill_founders founders_d 0

/-- Reshape a flat array of `n_samples * n_ploidy` entries into a
`[sample][haplotype]` table (row-major, as `boost::multi_array`). -/
def reshape (flat : List ℕ) (n_samples n_ploidy : ℕ) : List (List ℕ) :=
  (List.range n_samples).map (fun s => (flat.drop (s * n_ploidy)).take n_ploidy)

/-- C++ `simulate_haplotypes_map`: assert the multiplicities, materialize the
flat founder array, shuffle it (the generator's permutation is modelled by
the `shuffle` parameter), and reshape. -/
def simulate_haplotypes_map (founders_d : List ℕ) (n_samples n_ploidy : ℕ)
    (shuffle : List ℕ → List ℕ) : Except String (List (List ℕ)) :=
  if founders_d.sum = n_samples * n_ploidy then
    .ok (reshape (shuffle (flatten_founders founders_d)) n_samples n_ploidy)
  else .error assert_map_error

/-! ## End-to-end run (C++ `run` / `main`), greedy path -/

/-- C++ `run<n_ploidy>` with the default (non-MIP) strategy: read the VCF,
normalize the dosage distributions to the output sample count, simulate the
founders distribution and the haplotype map, fit every marker with the
greedy descent fitter, and produce the founder alleles, the per-sample
alleles written to the output VCF, and the accumulated distance. -/
def run_greedy (n_ploidy n_founders n_samples : ℕ) (records : List vcf_record)
    (draws : List ℕ) (shuffle : List ℕ → List ℕ) :
    Except String (List (List ℕ) × List (List (List ℕ)) × ℚ) := do
  let dosages_v ← read_vcf n_ploidy records
  let targets := dosages_v.map
    (fun dosages_d => normalize_dosages_distribution (dosages_q dosages_d) n_samples)
  let founders_d ← simulate_founders_distribution n_founders n_samples n_ploidy draws
  let haplotypes_m ← simulate_haplotypes_map founders_d n_samples n_ploidy shuffle
  let fitted := targets.map
    (fun dosages_d_in =>
      descent_fit n_ploidy haplotypes_m dosages_d_in (List.replicate n_founders 0))
  let founders_alts_v := fitted.map Prod.fst
  let samples_alts_v := founders_alts_v.map
    (fun founders_alts =>
      haplotypes_m.map (fun row => row.map (fun j => founders_alts.getD j 0)))
  let distances := (fitted.map Prod.snd).sum
  pure (founders_alts_v, samples_alts_v, distances)

/-- C++ `main`: exit status 0 plus the produced output on success; on a
`seqan::Exception` the error is reported, the exit status is 1, and no
output file is produced. -/
def main_result (n_ploidy n_founders n_samples : ℕ) (records : List vcf_record)
    (draws : List ℕ) (shuffle : List ℕ → List ℕ) :
    ℕ × Option (List (List ℕ) × List (List (List ℕ)) × ℚ) :=
  match run_greedy n_ploidy n_founders n_samples records draws shuffle with
  | .ok out => (0, some out)
  | .error _ => (1, none)

/-! ## Support lemmas: the sentinel-extended order -/

theorem le_opt_refl (a : Option ℚ) : le_opt a a = true := by
  cases a <;> simp [le_opt, lt_opt]

theorem le_opt_of_lt {a b : Option ℚ} (h : lt_opt a b = true) : le_opt a b = true := by
  cases a <;> cases b <;> simp_all [le_opt, lt_opt] <;> linarith

theorem le_opt_of_not_lt {a b : Option ℚ} (h : lt_opt a b = false) : le_opt b a = true := by
  simp [le_opt, h]

theorem le_opt_trans {a b c : Option ℚ} (h1 : le_opt a b = true) (h2 : le_opt b c = true) :
    le_opt a c = true := by
  cases a <;> cases b <;> cases c <;> simp_all [le_opt, lt_opt] <;> linarith

/-! ## Support lemmas: `min_element` -/

theorem min_el_aux_spec :
    ∀ (l : List (Option ℚ)) (i : ℕ) (best : ℕ × Option ℚ),
      min_el_aux l i best = best ∨
        ∃ j, j < l.length ∧ min_el_aux l i best = (i + j, l.getD j none)
  | [], _, _ => Or.inl rfl
  | x :: xs, i, best => by
    rw [min_el_aux]
    rcases min_el_aux_spec xs (i + 1) (if lt_opt x best.2 then (i, x) else best) with h | ⟨j, hj, h⟩
    · rw [h]
      by_cases hx : lt_opt x best.2 = true
      · right
        exact ⟨0, by simp, by simp [hx]⟩
      · left
        simp [hx]
    · right
      refine ⟨j + 1, by simpa using hj, ?_⟩
      rw [h, List.getD_cons_succ]
      have : i + 1 + j = i + (j + 1) := by omega
      rw [this]

theorem min_el_aux_le :
    ∀ (l : List (Option ℚ)) (i : ℕ) (best : ℕ × Option ℚ),
      le_opt (min_el_aux l i best).2 best.2 = true ∧
        ∀ x ∈ l, le_opt (min_el_aux l i best).2 x = true
  | [], _, best => ⟨le_opt_refl best.2, by simp⟩
  | x :: xs, i, best => by
    rw [min_el_aux]
    obtain ⟨ih1, ih2⟩ := min_el_aux_le xs (i + 1) (if lt_opt x best.2 then (i, x) else best)
    by_cases hx : lt_opt x best.2 = true
    · rw [if_pos hx] at ih1 ih2 ⊢
      refine ⟨le_opt_trans ih1 (le_opt_of_lt hx), ?_⟩
      intro y hy
      rcases List.mem_cons.mp hy with rfl | hy
      · exact ih1
      · exact ih2 y hy
    · rw [if_neg hx] at ih1 ih2 ⊢
      refine ⟨ih1, ?_⟩
      intro y hy
      rcases List.mem_cons.mp hy with rfl | hy
      · exact le_opt_trans ih1 (le_opt_of_not_lt (Bool.not_eq_true _ ▸ hx))
      · exact ih2 y hy

theorem min_element_getD {l : List (Option ℚ)} {m : ℚ}
    (h : (min_element l).2 = some m) :
    (min_element l).1 < l.length ∧ l.getD (min_element l).1 none = some m := by
  unfold min_element at *
  rcases min_el_aux_spec l 0 (0, none) with heq | ⟨j, hj, heq⟩
  · rw [heq] at h
    exact absurd h (by simp)
  · rw [heq] at h ⊢
    refine ⟨by simpa using hj, ?_⟩
    simpa using h

theorem min_element_min {l : List (Option ℚ)} :
    ∀ x ∈ l, le_opt (min_element l).2 x = true :=
  (min_el_aux_le l 0 (0, none)).2

/-! ## Support lemmas: probes and the descent loop -/

theorem probes_length (p : ℕ) (hm : List (List ℕ)) (T : List ℚ) (fa : List ℕ) :
    (probes p hm T fa).length = fa.length := by
  simp [probes]

theorem probes_getD {p : ℕ} {hm : List (List ℕ)} {T : List ℚ} {fa : List ℕ} {j : ℕ}
    (hj : j < fa.length) :
    (probes p hm T fa).getD j none = probe p hm T fa j := by
  simp [probes, List.getD_eq_getElem?_getD, List.getElem?_map, List.getElem?_range hj]

theorem probe_of_one {p : ℕ} {hm : List (List ℕ)} {T : List ℚ} {fa : List ℕ} {j : ℕ}
    (h : fa.getD j 0 = 1) : probe p hm T fa j = none := by
  unfold probe
  rw [if_pos h]

theorem probe_eq_some {p : ℕ} {hm : List (List ℕ)} {T : List ℚ} {fa : List ℕ} {j : ℕ} {m : ℚ}
    (h : probe p hm T fa j = some m) :
    fa.getD j 0 ≠ 1 ∧
      m = l1_norm T (dosages_q (make_dosages_distribution p (fa.set j 1) hm)) := by
  unfold probe at h
  split at h
  · exact absurd h (by simp)
  · next hne => exact ⟨hne, by injection h with h; exact h.symm⟩

/-- If an iteration's minimum probed distance is finite, its index is a
founder currently not at 1, and the minimum is the distance probed there. -/
theorem min_probe_fresh {p : ℕ} {hm : List (List ℕ)} {T : List ℚ} {fa : List ℕ}
    {mi : ℕ} {md : ℚ}
    (h : min_element (probes p hm T fa) = (mi, some md)) :
    mi < fa.length ∧ fa.getD mi 0 ≠ 1 ∧
      md = l1_norm T (dosages_q (make_dosages_distribution p (fa.set mi 1) hm)) := by
  have h2 : (min_element (probes p hm T fa)).2 = some md := by rw [h]
  obtain ⟨hlen, hget⟩ := min_element_getD h2
  rw [h] at hlen hget
  rw [probes_length] at hlen
  rw [probes_getD hlen] at hget
  obtain ⟨hne, hm'⟩ := probe_eq_some hget
  exact ⟨hlen, hne, hm'⟩

/-- Setting a founder to 1 never clears another committed founder. -/
theorem getD_set_one {fa : List ℕ} {j m : ℕ} (h : fa.getD j 0 = 1) :
    (fa.set m 1).getD j 0 = 1 := by
  rcases eq_or_ne m j with rfl | hne
  · by_cases hm : m < fa.length
    · simp [List.getD_eq_getElem?_getD, List.getElem?_set_self hm]
    · rw [List.set_eq_of_length_le (le_of_not_lt hm)]
      exact h
  · rw [List.getD_eq_getElem?_getD, List.getElem?_set_ne hne, ← List.getD_eq_getElem?_getD]
    exact h

/-- Committing a founder currently not at 1 increases the number of
committed founders by exactly one. -/
theorem count_one_set {fa : List ℕ} {mi : ℕ} (hlen : mi < fa.length)
    (hne : fa.getD mi 0 ≠ 1) :
    (fa.set mi 1).count 1 = fa.count 1 + 1 := by
  have hget : fa[mi] ≠ 1 := by
    rw [List.getD_eq_getElem?_getD, List.getElem?_eq_getElem hlen] at hne
    simpa using hne
  rw [List.count_set 1 1 fa mi hlen]
  simp [hget]

/-- Loop invariant of `descent_fitting::fit`: the running distance is the L1
distance of the current candidate's distribution to the target, the distance
never increases, and the vector's length is unchanged. -/
theorem descent_loop_spec (p : ℕ) (hm : List (List ℕ)) (T : List ℚ) :
    ∀ (fuel : ℕ) (fa : List ℕ) (dist : ℚ),
      dist = l1_norm T (dosages_q (make_dosages_distribution p fa hm)) →
      (descent_loop p hm T fuel fa dist).2
          = l1_norm T
              (dosages_q (make_dosages_distribution p (descent_loop p hm T fuel fa dist).1 hm))
        ∧ (descent_loop p hm T fuel fa dist).2 ≤ dist
        ∧ (descent_loop p hm T fuel fa dist).1.length = fa.length
  | 0, fa, dist, hd => ⟨hd, le_refl _, rfl⟩
  | fuel + 1, fa, dist, hd => by
    simp only [descent_loop]
    by_cases hb : lt_opt (some dist) (min_element (probes p hm T fa)).2 = true
    · rw [if_pos hb]
      exact ⟨hd, le_refl _, rfl⟩
    · rw [if_neg hb]
      cases hmd : (min_element (probes p hm T fa)).2 with
      | none => exact absurd (by rw [hmd]; rfl) hb
      | some md =>
        simp only [Option.getD_some]
        obtain ⟨hlen, hne, hmdE⟩ :=
          min_probe_fresh (Prod.ext (rfl : (min_element (probes p hm T fa)).1 = _) hmd)
        obtain ⟨ih1, ih2, ih3⟩ :=
          descent_loop_spec p hm T fuel (fa.set (min_element (probes p hm T fa)).1 1) md hmdE
        have hle : md ≤ dist := by
          rw [hmd] at hb
          simpa [lt_opt, not_lt] using hb
        refine ⟨ih1, le_trans ih2 (hd ▸ hle), ?_⟩
        rw [ih3, List.length_set]

/-- Once committed to 1, a founder stays at 1 for the rest of the loop. -/
theorem descent_loop_sticky (p : ℕ) (hm : List (List ℕ)) (T : List ℚ) :
    ∀ (fuel : ℕ) (fa : List ℕ) (dist : ℚ) (j : ℕ), fa.getD j 0 = 1 →
      ((descent_loop p hm T fuel fa dist).1).getD j 0 = 1
  | 0, _, _, _, h => h
  | fuel + 1, fa, dist, j, h => by
    simp only [descent_loop]
    by_cases hb : lt_opt (some dist) (min_element (probes p hm T fa)).2 = true
    · rw [if_pos hb]
      exact h
    · rw [if_neg hb]
      exact descent_loop_sticky p hm T fuel _ _ j (getD_set_one h)

/-- Each loop pass commits at most one founder. -/
theorem descent_loop_count (p : ℕ) (hm : List (List ℕ)) (T : List ℚ) :
    ∀ (fuel : ℕ) (fa : List ℕ) (dist : ℚ),
      (descent_loop p hm T fuel fa dist).1.count 1 ≤ fa.count 1 + fuel
  | 0, fa, dist => Nat.le_add_right _ _
  | fuel + 1, fa, dist => by
    simp only [descent_loop]
    by_cases hb : lt_opt (some dist) (min_element (probes p hm T fa)).2 = true
    · rw [if_pos hb]
      exact Nat.le_add_right _ _
    · rw [if_neg hb]
      cases hmd : (min_element (probes p hm T fa)).2 with
      | none => exact absurd (by rw [hmd]; rfl) hb
      | some md =>
        simp only [Option.getD_some]
        obtain ⟨hlen, hne, _⟩ :=
          min_probe_fresh (Prod.ext (rfl : (min_element (probes p hm T fa)).1 = _) hmd)
        have ih := descent_loop_count p hm T fuel
          (fa.set (min_element (probes p hm T fa)).1 1) md
        rw [count_one_set hlen hne] at ih
        omega

/-- C1 (amended): in every iteration of the Greedy Descent Fitter, after
probing each founder currently 0, the loop stops without committing a flip
when the smallest probed distance is **strictly greater** than the current
distance; whenever the smallest probed distance is less than or equal to the
current distance — in particular on a tie — the flip at the minimizing
index is committed and iteration continues.  The minimum is over all probes
(`le_opt` places the `FLT_MAX` sentinel of committed founders above every
finite distance) and is attained at the committed index. -/
theorem descent_stop_rule (p : ℕ) (hm : List (List ℕ)) (T : List ℚ) (fa : List ℕ)
    (dist : ℚ) (fuel mi : ℕ) (md : ℚ)
    (hmin : min_element (probes p hm T fa) = (mi, some md)) :
    (dist < md → descent_loop p hm T (fuel + 1) fa dist = (fa, dist)) ∧
    (md ≤ dist → descent_loop p hm T (fuel + 1) fa dist
        = descent_loop p hm T fuel (fa.set mi 1) md) ∧
    (∀ x ∈ probes p hm T fa, le_opt (some md) x = true) ∧
    (probes p hm T fa).getD mi none = some md := by
  have h2 : (min_element (probes p hm T fa)).2 = some md := by rw [hmin]
  refine ⟨?_, ?_, ?_, ?_⟩
  · intro hlt
    simp only [descent_loop, hmin]
    rw [if_pos (by simpa [lt_opt] using hlt)]
  · intro hle
    simp only [descent_loop, hmin]
    rw [if_neg (by simp [lt_opt, not_lt.mpr hle])]
    rfl
  · intro x hx
    have h := min_element_min x hx
    rw [h2] at h
    exact h
  · obtain ⟨_, hget⟩ := min_element_getD h2
    rw [hmin] at hget
    exact hget

theorem descent_stop_rule_witness :
    min_element (probes 2 [[0, 0]] [1, 0, 1] [0]) = (0, some 1) ∧
    ((1:ℚ) ≤ 1 → descent_loop 2 [[0, 0]] [1, 0, 1] 1 [0] 1
        = descent_loop 2 [[0, 0]] [1, 0, 1] 0 ([0].set 0 1) 1) := by
  have hmin : min_element (probes 2 [[0, 0]] [1, 0, 1] [0]) = (0, some 1) := by
    norm_num [probes, probe, min_element, min_el_aux, lt_opt, l1_norm, qabs, dosages_q,
      make_dosages_distribution, sample_dosage, List.range_succ]
  exact ⟨hmin, (descent_stop_rule 2 [[0, 0]] [1, 0, 1] [0] 1 0 0 1 hmin).2.1⟩

/-- C1 (counterexample to the claim as stated): with ploidy 2, one sample
whose two slots both map to the single founder 0, and target `[1, 0, 1]`,
the all-zero vector has distance 1 and the only probe also has distance 1 —
the smallest probed distance is **not** strictly smaller than the current
distance, yet the fitter commits the flip: it returns the vector `[1]`
(founder 0 set to 1), not the untouched all-zero vector. -/
theorem descent_tie_commits_cex :
    l1_norm [1, 0, 1] (dosages_q (make_dosages_distribution 2 [0] [[0, 0]])) = 1 ∧
    probes 2 [[0, 0]] [1, 0, 1] [0] = [some 1] ∧
    descent_fit 2 [[0, 0]] [1, 0, 1] [0] = ([1], 1) ∧
    (descent_fit 2 [[0, 0]] [1, 0, 1] [0]).1 ≠ [0] := by
  refine ⟨?_, ?_, ?_, ?_⟩ <;>
    norm_num [descent_fit, descent_loop, probes, probe, min_element, min_el_aux, lt_opt,
      le_opt, l1_norm, qabs, dosages_q, make_dosages_distribution, sample_dosage,
      List.range_succ]

/-- C3: for every haplotype map, target distribution and ploidy, both the
distance returned by the Greedy Descent Fitter and the L1 distance between
the target and the distribution induced by the final founder allele vector
are at most the L1 distance between the target and the distribution induced
by the all-zero founder vector. -/
theorem descent_distance_bound (p : ℕ) (hm : List (List ℕ)) (T : List ℚ)
    (fa_in : List ℕ) :
    (descent_fit p hm T fa_in).2
        ≤ l1_norm T
            (dosages_q (make_dosages_distribution p (List.replicate fa_in.length 0) hm)) ∧
    l1_norm T (dosages_q (make_dosages_distribution p (descent_fit p hm T fa_in).1 hm))
        ≤ l1_norm T
            (dosages_q (make_dosages_distribution p (List.replicate fa_in.length 0) hm)) := by
  simp only [descent_fit]
  obtain ⟨h1, h2, _⟩ := descent_loop_spec p hm T (List.replicate fa_in.length 0).length
    (List.replicate fa_in.length 0)
    (l1_norm T (dosages_q (make_dosages_distribution p (List.replicate fa_in.length 0) hm)))
    rfl
  exact ⟨h2, h1 ▸ h2⟩

/-- C4: the Greedy Descent Fitter terminates within `n_founders` committing
iterations: the result vector keeps its length, at most `n_founders` founders
end up committed to 1, a founder already at 1 is never probed (its probe is
the sentinel), a founder committed to 1 is never reset by the rest of the
loop, and each committed iteration flips a founder currently not at 1,
growing the committed set by exactly one. -/
theorem descent_termination (p : ℕ) (hm : List (List ℕ)) (T : List ℚ) (fa_in : List ℕ) :
    (descent_fit p hm T fa_in).1.length = fa_in.length ∧
    (descent_fit p hm T fa_in).1.count 1 ≤ fa_in.length ∧
    (∀ (fa : List ℕ) (j : ℕ), fa.getD j 0 = 1 → probe p hm T fa j = none) ∧
    (∀ (fuel : ℕ) (fa : List ℕ) (dist : ℚ) (j : ℕ), fa.getD j 0 = 1 →
      ((descent_loop p hm T fuel fa dist).1).getD j 0 = 1) ∧
    (∀ (fa : List ℕ) (mi : ℕ) (md : ℚ),
      min_element (probes p hm T fa) = (mi, some md) →
        fa.getD mi 0 ≠ 1 ∧ (fa.set mi 1).count 1 = fa.count 1 + 1) := by
  refine ⟨?_, ?_, ?_, ?_, ?_⟩
  · simp only [descent_fit]
    obtain ⟨_, _, h3⟩ := descent_loop_spec p hm T (List.replicate fa_in.length 0).length
      (List.replicate fa_in.length 0)
      (l1_norm T (dosages_q (make_dosages_distribution p (List.replicate fa_in.length 0) hm)))
      rfl
    simpa using h3
  · simp only [descent_fit]
    have h := descent_loop_count p hm T (List.replicate fa_in.length 0).length
      (List.replicate fa_in.length 0)
      (l1_norm T (dosages_q (make_dosages_distribution p (List.replicate fa_in.length 0) hm)))
    simpa [List.count_replicate] using h
  · exact fun fa j h => probe_of_one h
  · exact descent_loop_sticky p hm T
  · intro fa mi md hmin
    obtain ⟨hlen, hne, _⟩ := min_probe_fresh hmin
    exact ⟨hne, count_one_set hlen hne⟩

theorem descent_termination_witness :
    ([1] : List ℕ).getD 0 0 = 1 ∧ probe 2 [[0, 0]] [1, 0, 1] [1] 0 = none :=
  ⟨rfl, (descent_termination 2 [[0, 0]] [1, 0, 1] [0]).2.2.1 [1] 0 rfl⟩

/-- C9: the Greedy Descent Fitter's result does not depend on the contents
of the founder allele vector it is given — `fit` overwrites the vector with
zeros before fitting — so any two input vectors of the same length produce
identical outputs. -/
theorem descent_input_independent (p : ℕ) (hm : List (List ℕ)) (T : List ℚ)
    (v1 v2 : List ℕ) (h : v1.length = v2.length) :
    descent_fit p hm T v1 = descent_fit p hm T v2 := by
  unfold descent_fit
  rw [h]

theorem descent_input_independent_witness :
    ([3, 7] : List ℕ).length = ([0, 0] : List ℕ).length ∧
    descent_fit 2 [[0, 1]] [1, 0, 1] [3, 7] = descent_fit 2 [[0, 1]] [1, 0, 1] [0, 0] :=
  ⟨rfl, descent_input_independent 2 [[0, 1]] [1, 0, 1] [3, 7] [0, 0] rfl⟩

/-! ## Normalization (C8) -/

theorem sum_map_mul_div (l : List ℚ) (c S : ℚ) :
    (l.map (fun x => c * x / S)).sum = c * l.sum / S := by
  induction l with
  | nil => simp
  | cons a t ih =>
    simp only [List.map_cons, List.sum_cons, ih]
    ring

/-- C8: normalization rescales every entry of a dosage distribution by
`target_n / sum`, after which the entries sum to the target sample count;
consequently normalizing an already-normalized distribution to the same
sample count leaves every entry unchanged, for every distribution whose
entries have a positive sum.  (Exact rational arithmetic models the C++
floats, so "within numeric tolerance" becomes exact equality.) -/
theorem normalize_spec (dosages_d : List ℚ) (n_samples : ℕ)
    (h : 0 < dosages_d.sum) :
    normalize_dosages_distribution dosages_d n_samples
        = dosages_d.map (fun x => (n_samples : ℚ) * x / dosages_d.sum) ∧
    (normalize_dosages_distribution dosages_d n_samples).sum = n_samples ∧
    normalize_dosages_distribution
        (normalize_dosages_distribution dosages_d n_samples) n_samples
      = normalize_dosages_distribution dosages_d n_samples := by
  have hS : dosages_d.sum ≠ 0 := ne_of_gt h
  have hsum : (normalize_dosages_distribution dosages_d n_samples).sum = n_samples := by
    unfold normalize_dosages_distribution
    rw [sum_map_mul_div]
    field_simp
  refine ⟨rfl, hsum, ?_⟩
  by_cases hn : (n_samples : ℚ) = 0
  · have hzero : ∀ x ∈ normalize_dosages_distribution dosages_d n_samples, x = 0 := by
      intro x hx
      obtain ⟨a, _, rfl⟩ := List.mem_map.mp hx
      rw [hn]
      ring
    conv_lhs => rw [normalize_dosages_distribution]
    rw [show (normalize_dosages_distribution dosages_d n_samples).map
          (fun d => (n_samples : ℚ) * d /
            (normalize_dosages_distribution dosages_d n_samples).sum)
        = (normalize_dosages_distribution dosages_d n_samples).map (fun d => d) from
      List.map_congr_left (fun x hx => by rw [hzero x hx, hn]; ring)]
    exact List.map_id _
  · conv_lhs => rw [normalize_dosages_distribution]
    rw [hsum]
    rw [show (normalize_dosages_distribution dosages_d n_samples).map
          (fun d => (n_samples : ℚ) * d / (n_samples : ℚ))
        = (normalize_dosages_distribution dosages_d n_samples).map (fun d => d) from
      List.map_congr_left (fun x _ => by field_simp)]
    exact List.map_id _

theorem normalize_spec_witness :
    (0 : ℚ) < ([1, 1] : List ℚ).sum ∧
    (normalize_dosages_distribution [1, 1] 3).sum = 3 :=
  ⟨by norm_num, (normalize_spec [1, 1] 3 (by norm_num)).2.1⟩

/-! ## VCF loading (C5, C10) and configuration errors (C6) -/

theorem except_bind_ok {α β : Type} (a : α) (f : α → Except String β) :
    (Except.ok a >>= f) = f a := rfl

theorem except_bind_error {α β : Type} (e : String) (f : α → Except String β) :
    ((Except.error e : Except String α) >>= f) = Except.error e := rfl

theorem except_map_ok {α β : Type} (f : α → β) (a : α) :
    (f <$> (Except.ok a : Except String α)) = Except.ok (f a) := rfl

theorem except_map_error {α β : Type} (f : α → β) (e : String) :
    (f <$> (Except.error e : Except String α)) = Except.error e := rfl

theorem process_genotypes_ok_ploidy (np : ℕ) :
    ∀ (gis : List (List Char)) (dd dd' : List ℕ),
      process_genotypes np gis dd = .ok dd' →
      ∀ gi ∈ gis,
        is_unknown (read_genotype gi) = true ∨ get_ploidy (read_genotype gi) = np
  | [], _, _, _ => by simp
  | gi :: rest, dd, dd', h => by
    intro g hg
    rw [process_genotypes] at h
    by_cases hu : is_unknown (read_genotype gi) = true
    · rw [if_pos hu] at h
      rcases List.mem_cons.mp hg with rfl | hmem
      · exact Or.inl hu
      · exact process_genotypes_ok_ploidy np rest dd dd' h g hmem
    · rw [if_neg (by simpa using hu)] at h
      by_cases hp : get_ploidy (read_genotype gi) ≠ np
      · rw [if_pos hp] at h
        exact absurd h (by simp)
      · rw [if_neg hp] at h
        rcases List.mem_cons.mp hg with rfl | hmem
        · exact Or.inr (not_ne_iff.mp hp)
        · exact process_genotypes_ok_ploidy np rest _ dd' h g hmem

theorem process_genotypes_error_msg (np : ℕ) :
    ∀ (gis : List (List Char)) (dd : List ℕ) (e : String),
      process_genotypes np gis dd = .error e → e = ploidy_error
  | [], _, _, h => by exact absurd h (by simp [process_genotypes])
  | gi :: rest, dd, e, h => by
    rw [process_genotypes] at h
    by_cases hu : is_unknown (read_genotype gi) = true
    · rw [if_pos hu] at h
      exact process_genotypes_error_msg np rest dd e h
    · rw [if_neg (by simpa using hu)] at h
      by_cases hp : get_ploidy (read_genotype gi) ≠ np
      · rw [if_pos hp] at h
        injection h with h
        exact h.symm
      · rw [if_neg hp] at h
        exact process_genotypes_error_msg np rest _ e h

theorem read_vcf_error_msg (np : ℕ) :
    ∀ (records : List vcf_record) (e : String),
      read_vcf np records = .error e → e = ploidy_error
  | [], _, h => by exact absurd h (by simp [read_vcf])
  | r :: rest, e, h => by
    rw [read_vcf] at h
    by_cases hc : r.alt.contains ',' = true
    · rw [if_pos hc] at h
      exact read_vcf_error_msg np rest e h
    · rw [if_neg hc] at h
      cases hpg : process_genotypes np r.genotypeInfos (List.replicate (np + 1) 0) with
      | error e' =>
        rw [hpg] at h
        have he : e' = e := by
          simpa [except_bind_error] using h
        exact he ▸ process_genotypes_error_msg np r.genotypeInfos _ e' hpg
      | ok dd =>
        rw [hpg] at h
        cases hrest : read_vcf np rest with
        | error e' =>
          rw [hrest] at h
          have he : e' = e := by
            simpa [except_bind_ok, except_map_error] using h
          exact he ▸ read_vcf_error_msg np rest e' hrest
        | ok ds =>
          rw [hrest] at h
          rw [except_bind_ok, except_bind_ok] at h
          exact absurd h (by simp [pure, Except.pure])

theorem read_vcf_ok_sound (np : ℕ) :
    ∀ (records : List vcf_record) (ds : List (List ℕ)),
      read_vcf np records = .ok ds →
      ∀ r ∈ records, r.alt.contains ',' = false →
        ∀ gi ∈ r.genotypeInfos,
          is_unknown (read_genotype gi) = true ∨ get_ploidy (read_genotype gi) = np
  | [], _, _ => by simp
  | r :: rest, ds, h => by
    intro r' hr' halt gi hgi
    rw [read_vcf] at h
    by_cases hc : r.alt.contains ',' = true
    · rw [if_pos hc] at h
      rcases List.mem_cons.mp hr' with rfl | hmem
      · rw [halt] at hc
        exact absurd hc (by simp)
      · exact read_vcf_ok_sound np rest ds h r' hmem halt gi hgi
    · rw [if_neg hc] at h
      cases hpg : process_genotypes np r.genotypeInfos (List.replicate (np + 1) 0) with
      | error e' =>
        rw [hpg] at h
        rw [except_bind_error] at h
        exact absurd h (by simp)
      | ok dd =>
        rw [hpg] at h
        cases hrest : read_vcf np rest with
        | error e' =>
          rw [hrest] at h
          rw [except_bind_ok, except_bind_error] at h
          exact absurd h (by simp)
        | ok ds' =>
          rcases List.mem_cons.mp hr' with rfl | hmem
          · exact process_genotypes_ok_ploidy np _ _ dd hpg gi hgi
          · exact read_vcf_ok_sound np rest ds' hrest r' hmem halt gi hgi

/-- C5: during load, a known (non-missing) genotype whose number of alleles
differs from the configured ploidy aborts the whole load with the
data-format error `ploidy_error` — regardless of which marker it occurs in —
the process exits with status 1, and no output is produced. -/
theorem ploidy_mismatch_aborts (np nf ns : ℕ) (records : List vcf_record)
    (draws : List ℕ) (shuffle : List ℕ → List ℕ) (r : vcf_record) (gi : List Char)
    (hr : r ∈ records) (halt : r.alt.contains ',' = false)
    (hgi : gi ∈ r.genotypeInfos)
    (hknown : is_unknown (read_genotype gi) = false)
    (hploidy : get_ploidy (read_genotype gi) ≠ np) :
    read_vcf np records = .error ploidy_error ∧
    main_result np nf ns records draws shuffle = (1, none) := by
  have herr : read_vcf np records = .error ploidy_error := by
    cases hre : read_vcf np records with
    | ok ds =>
      rcases read_vcf_ok_sound np records ds hre r hr halt gi hgi with hu | hp
      · rw [hknown] at hu
        exact absurd hu (by simp)
      · exact absurd hp hploidy
    | error e => rw [read_vcf_error_msg np records e hre]
  refine ⟨herr, ?_⟩
  unfold main_result
  rw [show run_greedy np nf ns records draws shuffle = .error ploidy_error by
    unfold run_greedy
    rw [herr, except_bind_error]]

theorem ploidy_mismatch_aborts_witness :
    is_unknown (read_genotype ['1', '/', '1', '/', '1']) = false ∧
    get_ploidy (read_genotype ['1', '/', '1', '/', '1']) = 3 ∧
    main_result 2 1 1 [⟨['T'], [['1', '/', '1', '/', '1']]⟩] [] id = (1, none) :=
  ⟨by decide, by decide,
    (ploidy_mismatch_aborts 2 1 1 [⟨['T'], [['1', '/', '1', '/', '1']]⟩] [] id
      ⟨['T'], [['1', '/', '1', '/', '1']]⟩ ['1', '/', '1', '/', '1']
      (by simp) (by decide) (by simp) (by decide) (by decide)).2⟩

/-- C10: a genotype is classified unknown by its **last** allele character
only, and this check precedes the ploidy check: a genotype ending in `'.'`
is skipped — never triggering the fatal ploidy-mismatch error — regardless
of its allele count (e.g. the 3-allele `1/1/.` under ploidy 2), while the
partially missing `./1` does not end in `'.'`, is treated as known, and is
counted (dosage 1). -/
theorem unknown_genotype_skipped :
    (∀ (np : ℕ) (gi : List Char) (rest : List (List Char)) (dd : List ℕ),
      (read_genotype gi).getLastD ' ' = '.' →
      process_genotypes np (gi :: rest) dd = process_genotypes np rest dd) ∧
    read_genotype ['.', '/', '1'] = ['.', '1'] ∧
    is_unknown ['.', '1'] = false ∧
    process_genotypes 2 [['.', '/', '1']] [0, 0, 0] = .ok [0, 1, 0] ∧
    process_genotypes 2 [['1', '/', '1', '/', '.']] [0, 0, 0] = .ok [0, 0, 0] := by
  refine ⟨?_, by decide, by decide, rfl, rfl⟩
  intro np gi rest dd h
  rw [process_genotypes]
  rw [if_pos (show is_unknown (read_genotype gi) = true by
    unfold is_unknown
    exact decide_eq_true h)]

theorem unknown_genotype_skipped_witness :
    (read_genotype ['1', '/', '.']).getLastD ' ' = '.' ∧
    process_genotypes 2 [['1', '/', '.']] [0, 0, 0] = process_genotypes 2 [] [0, 0, 0] :=
  ⟨by decide, unknown_genotype_skipped.1 2 ['1', '/', '.'] [] [0, 0, 0] (by decide)⟩

/-- C6: a configuration with `n_founders > n_samples * n_ploidy` is rejected
by the founders-distribution assertion, which runs after loading and before
any fitting; the run produces the configuration error, the process exits
with status 1, and no output is produced. -/
theorem founders_config_rejected (np nf ns : ℕ) (records : List vcf_record)
    (draws : List ℕ) (shuffle : List ℕ → List ℕ) (ds : List (List ℕ))
    (hns : 0 < ns) (hbad : ns * np < nf)
    (hread : read_vcf np records = .ok ds) :
    run_greedy np nf ns records draws shuffle = .error assert_founders_error ∧
    main_result np nf ns records draws shuffle = (1, none) := by
  have hsim : simulate_founders_distribution nf ns np draws
      = .error assert_founders_error := by
    unfold simulate_founders_distribution
    rw [if_neg (by omega), if_pos (by omega)]
  have hrun : run_greedy np nf ns records draws shuffle
      = .error assert_founders_error := by
    unfold run_greedy
    rw [hread, except_bind_ok]
    simp only [hsim, except_bind_error]
  refine ⟨hrun, ?_⟩
  unfold main_result
  rw [hrun]

theorem founders_config_rejected_witness :
    (0 < 1 ∧ 1 * 2 < 5) ∧
    main_result 2 5 1 [] [] id = (1, none) :=
  ⟨⟨by decide, by decide⟩,
    (founders_config_rejected 2 5 1 [] [] id [] (by decide) (by decide) rfl).2⟩

/-! ## Haplotype-map simulation (C7) -/

theorem apply_draws_length : ∀ (draws fd : List ℕ), (apply_draws fd draws).length = fd.length
  | [], _ => rfl
  | d :: rest, fd => by
    rw [apply_draws, apply_draws_length rest, List.length_set]

theorem sum_set_bump : ∀ (fd : List ℕ) (d : ℕ), d < fd.length →
    (fd.set d (fd.getD d 0 + 1)).sum = fd.sum + 1
  | [], d, hd => absurd hd (by simp)
  | a :: t, 0, _ => by
    simp only [List.getD_cons_zero, List.set]
    simp only [List.sum_cons]
    omega
  | a :: t, d + 1, hd => by
    rw [List.getD_cons_succ, List.set_cons_succ, List.sum_cons, List.sum_cons,
      sum_set_bump t d (by simpa using hd)]
    omega

theorem apply_draws_sum : ∀ (draws fd : List ℕ), (∀ d ∈ draws, d < fd.length) →
    (apply_draws fd draws).sum = fd.sum + draws.length
  | [], fd, _ => by rw [apply_draws]; simp
  | d :: rest, fd, h => by
    rw [apply_draws,
      apply_draws_sum rest _ (fun x hx => by
        rw [List.length_set]
        exact h x (List.mem_cons_of_mem _ hx)),
      sum_set_bump fd d (h d (List.mem_cons_self _ _))]
    simp
    omega

theorem getD_set_bump_le (fd : List ℕ) (d f : ℕ) :
    fd.getD f 0 ≤ (fd.set d (fd.getD d 0 + 1)).getD f 0 := by
  rcases eq_or_ne d f with rfl | hne
  · by_cases hd : d < fd.length
    · have : (fd.set d (fd.getD d 0 + 1)).getD d 0 = fd.getD d 0 + 1 := by
        rw [List.getD_eq_getElem?_getD, List.getElem?_set_self hd]
        rfl
      omega
    · rw [List.set_eq_of_length_le (le_of_not_lt hd)]
  · simp [List.getD_eq_getElem?_getD, List.getElem?_set_ne hne]

theorem apply_draws_getD_le : ∀ (draws fd : List ℕ) (f : ℕ),
    fd.getD f 0 ≤ (apply_draws fd draws).getD f 0
  | [], fd, f => le_refl _
  | d :: rest, fd, f => by
    rw [apply_draws]
    exact le_trans (getD_set_bump_le fd d f) (apply_draws_getD_le rest _ f)

theorem fill_founders_length : ∀ (fd : List ℕ) (i : ℕ),
    (fill_founders fd i).length = fd.sum
  | [], _ => rfl
  | m :: rest, i => by
    rw [fill_founders, List.length_append, List.length_replicate,
      fill_founders_length rest (i + 1), List.sum_cons]

theorem fill_founders_mem_ge : ∀ (fd : List ℕ) (i x : ℕ), x ∈ fill_founders fd i → i ≤ x
  | [], i, x, h => absurd h (by rw [fill_founders]; simp)
  | m :: rest, i, x, h => by
    rw [fill_founders] at h
    rcases List.mem_append.mp h with h | h
    · rw [List.eq_of_mem_replicate h]
    · exact le_trans (Nat.le_succ i) (fill_founders_mem_ge rest (i + 1) x h)

theorem fill_founders_count : ∀ (fd : List ℕ) (i c : ℕ),
    (fill_founders fd i).count (i + c) = fd.getD c 0
  | [], i, c => by rw [fill_founders]; simp
  | m :: rest, i, 0 => by
    rw [fill_founders, List.count_append]
    have h1 : (List.replicate m i).count (i + 0) = m := by
      simp [List.count_replicate]
    have h2 : (fill_founders rest (i + 1)).count (i + 0) = 0 := by
      rw [List.count_eq_zero]
      intro hmem
      have := fill_founders_mem_ge rest (i + 1) _ hmem
      omega
    rw [h1, h2, List.getD_cons_zero]
    omega
  | m :: rest, i, c + 1 => by
    rw [fill_founders, List.count_append]
    have h1 : (List.replicate m i).count (i + (c + 1)) = 0 := by
      simp only [List.count_replicate]
      have : ¬ (i = i + (c + 1)) := by omega
      simp [this]
    have h2 : (fill_founders rest (i + 1)).count (i + (c + 1)) = rest.getD c 0 := by
      rw [show i + (c + 1) = (i + 1) + c by omega]
      exact fill_founders_count rest (i + 1) c
    rw [h1, h2, List.getD_cons_succ]
    omega

theorem reshape_length (flat : List ℕ) (ns np : ℕ) :
    (reshape flat ns np).length = ns := by
  simp [reshape]

theorem reshape_rows (flat : List ℕ) (ns np : ℕ) (hlen : flat.length = ns * np) :
    ∀ row ∈ reshape flat ns np, row.length = np := by
  intro row hrow
  simp only [reshape, List.mem_map, List.mem_range] at hrow
  obtain ⟨s, hs, rfl⟩ := hrow
  rw [List.length_take, List.length_drop, hlen]
  have h2 : (s + 1) * np ≤ ns * np := Nat.mul_le_mul_right np hs
  have h3 : (s + 1) * np = s * np + np := by ring
  omega

theorem reshape_flatten : ∀ (ns : ℕ) (flat : List ℕ) (np : ℕ),
    flat.length = ns * np → (reshape flat ns np).flatten = flat
  | 0, flat, np, h => by
    have hnil : flat = [] := List.eq_nil_of_length_eq_zero (by simpa using h)
    simp [reshape, hnil]
  | ns + 1, flat, np, h => by
    rw [reshape, List.range_succ_eq_map, List.map_cons, List.map_map, List.flatten_cons]
    have hrest : (List.range ns).map ((fun s => (flat.drop (s * np)).take np) ∘ Nat.succ)
        = reshape (flat.drop np) ns np := by
      rw [reshape]
      apply List.map_congr_left
      intro s _
      simp only [Function.comp_apply]
      rw [List.drop_drop]
      congr 2
      rw [Nat.succ_mul]
      ring
    rw [hrest, reshape_flatten ns (flat.drop np) np (by rw [List.length_drop, h]; ring_nf; omega)]
    simpa using List.take_append_drop np flat

/-- C7: for every seed (modelled as the generator's draws, all below
`n_founders`, together with an arbitrary permutation applied by `shuffle`)
and every valid configuration `1 ≤ n_founders ≤ n_samples * n_ploidy`, the
simulation succeeds and yields a `[sample][slot]` table with `n_samples` rows
of `n_ploidy` slots each, in which founder `f` appears exactly its assigned
multiplicity times; the multiplicities sum to `n_samples * n_ploidy` and
every founder index below `n_founders` appears at least once. -/
theorem haplotypes_map_spec (nf ns np : ℕ) (draws : List ℕ)
    (shuffle : List ℕ → List ℕ)
    (hnf : 1 ≤ nf) (hns : 0 < ns) (hle : nf ≤ ns * np)
    (hdr : ∀ d ∈ draws, d < nf) (hlen : draws.length = ns * np - nf)
    (hperm : ∀ l, (shuffle l).Perm l) :
    ∃ fd hm,
      simulate_founders_distribution nf ns np draws = .ok fd ∧
      simulate_haplotypes_map fd ns np shuffle = .ok hm ∧
      hm.length = ns ∧ (∀ row ∈ hm, row.length = np) ∧
      fd.sum = ns * np ∧
      (∀ f, f < nf → 1 ≤ fd.getD f 0) ∧
      (∀ f, hm.flatten.count f = fd.getD f 0) := by
  set fd := apply_draws (List.replicate nf 1) draws with hfd
  have hfdlen : fd.length = nf := by
    rw [hfd, apply_draws_length, List.length_replicate]
  have hfdsum : fd.sum = ns * np := by
    rw [hfd, apply_draws_sum draws _ (fun d hd => by
      rw [List.length_replicate]
      exact hdr d hd)]
    simp [List.sum_replicate, hlen]
    omega
  have hsim : simulate_founders_distribution nf ns np draws = .ok fd := by
    unfold simulate_founders_distribution
    rw [if_neg (by omega), if_neg (by omega)]
  have hshlen : (shuffle (flatten_founders fd)).length = ns * np := by
    rw [(hperm (flatten_founders fd)).length_eq]
    rw [flatten_founders, fill_founders_length, hfdsum]
  have hmap : simulate_haplotypes_map fd ns np shuffle
      = .ok (reshape (shuffle (flatten_founders fd)) ns np) := by
    unfold simulate_haplotypes_map
    rw [if_pos hfdsum]
  refine ⟨fd, reshape (shuffle (flatten_founders fd)) ns np, hsim, hmap,
    reshape_length _ _ _, reshape_rows _ _ _ hshlen, hfdsum, ?_, ?_⟩
  · intro f hf
    have h1 : (List.replicate nf 1).getD f 0 = 1 := by
      rw [List.getD_eq_getElem?_getD, List.getElem?_replicate]
      simp [hf]
    have := apply_draws_getD_le draws (List.replicate nf 1) f
    rw [h1] at this
    exact this
  · intro f
    rw [reshape_flatten ns _ np hshlen]
    rw [(hperm (flatten_founders fd)).count_eq]
    rw [flatten_founders, show f = 0 + f by omega, fill_founders_count]
    simp

theorem haplotypes_map_spec_witness :
    (1 ≤ 2 ∧ 0 < 2 ∧ 2 ≤ 2 * 2 ∧ (∀ d ∈ [0, 1], d < 2) ∧
      ([0, 1] : List ℕ).length = 2 * 2 - 2 ∧ (∀ l : List ℕ, (id l).Perm l)) ∧
    ∃ fd hm,
      simulate_founders_distribution 2 2 2 [0, 1] = .ok fd ∧
      simulate_haplotypes_map fd 2 2 id = .ok hm ∧
      hm.length = 2 ∧ (∀ row ∈ hm, row.length = 2) ∧
      fd.sum = 2 * 2 ∧
      (∀ f, f < 2 → 1 ≤ fd.getD f 0) ∧
      (∀ f, hm.flatten.count f = fd.getD f 0) :=
  ⟨⟨by decide, by decide, by decide, by decide, by decide, fun l => List.Perm.refl l⟩,
    haplotypes_map_spec 2 2 2 [0, 1] id (by decide) (by decide) (by decide)
      (by decide) (by decide) (fun l => List.Perm.refl l)⟩

/-! ## MIP support lemmas (C2) -/

theorem qabs_nonneg (x : ℚ) : 0 ≤ qabs x := by
  unfold qabs
  split <;> linarith

theorem sub_le_qabs (a b : ℚ) : a - b ≤ qabs (a - b) := by
  rw [qabs_eq_abs]
  exact le_abs_self _

theorem sub_le_qabs_rev (a b : ℚ) : b - a ≤ qabs (a - b) := by
  rw [qabs_eq_abs, abs_sub_comm]
  exact le_abs_self _

theorem mip_objective_nonneg {p ns nf : ℕ} {hm : Fin ns → Fin p → Fin nf}
    {T : Fin (p + 1) → ℚ} {A : mip_assignment p ns nf}
    (h : mip_feasible hm T A) : 0 ≤ mip_objective A :=
  Finset.sum_nonneg (fun l _ => h.1 l)

theorem mip_z_zero {p ns nf : ℕ} {hm : Fin ns → Fin p → Fin nf}
    {T : Fin (p + 1) → ℚ} {A : mip_assignment p ns nf}
    (h : mip_feasible hm T A) (h0 : mip_objective A = 0) : ∀ l, A.z l = 0 := fun l =>
  (Finset.sum_eq_zero_iff_of_nonneg (fun i _ => h.1 i)).mp h0 l (Finset.mem_univ l)

/-- A feasible assignment of objective 0 reproduces the target counts. -/
theorem mip_d_eq_target {p ns nf : ℕ} {hm : Fin ns → Fin p → Fin nf}
    {T : Fin (p + 1) → ℚ} {A : mip_assignment p ns nf}
    (h : mip_feasible hm T A) (h0 : mip_objective A = 0) :
    ∀ l, (A.d l : ℚ) = T l := by
  intro l
  have hzz := mip_z_zero h h0 l
  obtain ⟨_, _, _, _, _, _, _, _, _, _, hr1, hr2⟩ := h
  have h1 := hr1 l
  have h2 := hr2 l
  rw [hzz] at h1 h2
  linarith

/-- Nonnegative integers summing to 1: exactly one of them is 1. -/
theorem sum_one_unique {n : ℕ} (v : Fin n → ℤ) (hv : ∀ l, 0 ≤ v l)
    (hsum : ∑ l, v l = 1) : ∃ l₀, v l₀ = 1 ∧ ∀ l, l ≠ l₀ → v l = 0 := by
  have hex : ∃ l₀, 1 ≤ v l₀ := by
    by_contra hno
    push_neg at hno
    have hle : ∑ l, v l ≤ 0 := Finset.sum_nonpos (fun i _ => by have := hno i; omega)
    omega
  obtain ⟨l₀, hl₀⟩ := hex
  have hsplit := Finset.add_sum_erase Finset.univ v (Finset.mem_univ l₀)
  rw [hsum] at hsplit
  have herase_nonneg : 0 ≤ ∑ x ∈ Finset.univ.erase l₀, v x :=
    Finset.sum_nonneg (fun i _ => hv i)
  have hv1 : v l₀ = 1 := by omega
  have herase0 : ∑ x ∈ Finset.univ.erase l₀, v x = 0 := by omega
  exact ⟨l₀, hv1, fun l hl =>
    (Finset.sum_eq_zero_iff_of_nonneg (fun i _ => hv i)).mp herase0 l
      (Finset.mem_erase.mpr ⟨hl, Finset.mem_univ l⟩)⟩

/-- In a feasible assignment, a set indicator pins the sample's slot-sum to
that dosage level (via `e ≤ p (1 - i)` and the two error bounds). -/
theorem mip_ind_sample_sum {p ns nf : ℕ} {hm : Fin ns → Fin p → Fin nf}
    {T : Fin (p + 1) → ℚ} {A : mip_assignment p ns nf}
    (h : mip_feasible hm T A) {s : Fin ns} {l : Fin (p + 1)}
    (h1 : A.ind s l = 1) : mip_sample_sum hm A s = ((l : ℕ) : ℤ) := by
  obtain ⟨_, _, hen, _, _, _, _, hge1, hge2, hel, _, _⟩ := h
  have he0 : A.e s l = 0 := by
    have h2 := hel s l
    rw [h1] at h2
    have h3 := hen s l
    push_cast at h2
    linarith
  have h4 := hge1 s l
  have h5 := hge2 s l
  rw [he0] at h4 h5
  have hq : ((mip_sample_sum hm A s : ℤ) : ℚ) = ((l : ℕ) : ℚ) := by linarith
  exact_mod_cast hq

/-- In a feasible assignment the dosage-count variables equal the dosage
distribution induced by the founder alleles. -/
theorem mip_d_eq_induced {p ns nf : ℕ} {hm : Fin ns → Fin p → Fin nf}
    {T : Fin (p + 1) → ℚ} {A : mip_assignment p ns nf}
    (h : mip_feasible hm T A) (l : Fin (p + 1)) :
    A.d l = (mip_induced_distribution hm A l : ℤ) := by
  have key : ∀ s : Fin ns,
      A.ind s l = if mip_sample_sum hm A s = ((l : ℕ) : ℤ) then 1 else 0 := by
    intro s
    obtain ⟨l₀, hl₀, hrest⟩ := sum_one_unique (fun l' => A.ind s l')
      (fun l' => h.2.2.2.1 s l') (h.2.2.2.2.2.2.1 s)
    have hS0 : mip_sample_sum hm A s = ((l₀ : ℕ) : ℤ) := mip_ind_sample_sum h hl₀
    by_cases hll : l = l₀
    · subst hll
      rw [hl₀, if_pos hS0]
    · rw [hrest l hll, if_neg]
      intro hc
      rw [hS0] at hc
      exact hll (Fin.ext (by exact_mod_cast hc.symm))
  rw [h.2.2.2.2.2.1 l]
  rw [Finset.sum_congr rfl (fun s _ => key s)]
  rw [mip_induced_distribution, Finset.card_filter]
  push_cast
  rfl

/-- An optimal assignment, in the presence of any feasible assignment of
objective 0, has objective 0 and reproduces the target exactly, both in its
count variables and in the distribution induced by its founder alleles. -/
theorem mip_optimal_exact {p ns nf : ℕ} {hm : Fin ns → Fin p → Fin nf}
    {T : Fin (p + 1) → ℚ} {A : mip_assignment p ns nf}
    (hopt : mip_optimal hm T A)
    (hex : ∃ B, mip_feasible hm T B ∧ mip_objective B = 0) :
    mip_objective A = 0 ∧ (∀ l, (A.d l : ℚ) = T l) ∧
      (∀ l, ((mip_induced_distribution hm A l : ℕ) : ℚ) = T l) := by
  obtain ⟨B, hBf, hB0⟩ := hex
  have h0 : mip_objective A = 0 :=
    le_antisymm (hB0 ▸ hopt.2 B hBf) (mip_objective_nonneg hopt.1)
  have hd := mip_d_eq_target hopt.1 h0
  refine ⟨h0, hd, fun l => ?_⟩
  have hind := mip_d_eq_induced hopt.1 l
  rw [← hd l, hind]
  push_cast
  rfl

theorem fill_founders_mem_lt : ∀ (fd : List ℕ) (i x : ℕ),
    x ∈ fill_founders fd i → x < i + fd.length
  | [], i, x, h => absurd h (by rw [fill_founders]; simp)
  | m :: rest, i, x, h => by
    rw [fill_founders] at h
    rcases List.mem_append.mp h with h | h
    · rw [List.eq_of_mem_replicate h]
      simp
    · have := fill_founders_mem_lt rest (i + 1) x h
      rw [List.length_cons]
      omega

theorem sum_ite_getD_count : ∀ (L : List ℕ) (c : ℕ),
    (∑ s : Fin L.length, if L.getD (s : ℕ) 0 = c then (1 : ℤ) else 0) = L.count c
  | [], c => by simp
  | a :: t, c => by
    have key : (∑ s : Fin (t.length + 1), if (a :: t).getD (s : ℕ) 0 = c then (1 : ℤ) else 0)
        = ((a :: t).count c : ℤ) := by
      rw [Fin.sum_univ_succ]
      simp only [Fin.val_zero, List.getD_cons_zero, Fin.val_succ, List.getD_cons_succ]
      rw [sum_ite_getD_count t c, List.count_cons]
      by_cases h : a = c
      · simp [h]
        omega
      · simp [h]
    exact key

theorem sum_ite_getD_count_len (L : List ℕ) (ns : ℕ) (hlen : L.length = ns) (c : ℕ) :
    (∑ s : Fin ns, if L.getD (s : ℕ) 0 = c then (1 : ℤ) else 0) = L.count c := by
  subst hlen
  exact sum_ite_getD_count L c

theorem sum_range_ite_lt (P k : ℕ) :
    (∑ i ∈ Finset.range P, if i < k then (1 : ℤ) else 0) = ((min k P : ℕ) : ℤ) := by
  induction P with
  | zero => simp
  | succ n ih =>
    rw [Finset.sum_range_succ, ih]
    by_cases h : n < k
    · rw [if_pos h]
      rw [show min k (n + 1) = min k n + 1 by omega]
      push_cast
      ring
    · rw [if_neg h]
      rw [show min k (n + 1) = min k n by omega]
      ring

/-- Existence half of the exact-fit property: when each founder is mapped to
exactly one haplotype slot (the slot-to-founder map is a bijection), every
integer-valued target with non-negative entries summing to `n_samples` is
achieved exactly by a feasible assignment of objective 0. -/
theorem mip_exact_exists (p ns nf : ℕ) (hm : Fin ns → Fin p → Fin nf)
    (t : Fin (p + 1) → ℕ)
    (hb : Function.Bijective (fun x : Fin ns × Fin p => hm x.1 x.2))
    (hsum : ∑ l, t l = ns) :
    ∃ A, mip_feasible hm (fun l => ((t l : ℕ) : ℚ)) A ∧ mip_objective A = 0 := by
  classical
  set L := fill_founders (List.ofFn t) 0 with hL
  have hLlen : L.length = ns := by
    rw [hL, fill_founders_length, List.sum_ofFn, hsum]
  set g : Fin ns → ℕ := fun s => L.getD (s : ℕ) 0 with hg
  have hg_lt : ∀ s, g s < p + 1 := by
    intro s
    have hs : (s : ℕ) < L.length := by rw [hLlen]; exact s.isLt
    have hmem : L.getD (s : ℕ) 0 ∈ L := by
      rw [List.getD_eq_getElem L 0 hs]
      exact List.getElem_mem hs
    have hbound := fill_founders_mem_lt (List.ofFn t) 0 _ hmem
    rw [List.length_ofFn] at hbound
    show L.getD (s : ℕ) 0 < p + 1
    omega
  have hg_le : ∀ s, g s ≤ p := fun s => Nat.lt_succ_iff.mp (hg_lt s)
  have hg_count : ∀ c : ℕ, (∑ s : Fin ns, if g s = c then (1 : ℤ) else 0) = L.count c :=
    fun c => sum_ite_getD_count_len L ns hLlen c
  have hcount_t : ∀ l : Fin (p + 1), L.count (l : ℕ) = t l := by
    intro l
    rw [hL, show (l : ℕ) = 0 + (l : ℕ) by omega, fill_founders_count]
    rw [List.getD_eq_getElem _ 0 (by simpa using l.isLt), List.getElem_ofFn]
  set eqv := Equiv.ofBijective _ hb with heqv
  set f : Fin nf → ℤ :=
    fun fd => if ((eqv.symm fd).2 : ℕ) < g (eqv.symm fd).1 then 1 else 0 with hf
  have hSsum : ∀ s : Fin ns, (∑ h : Fin p, f (hm s h)) = (g s : ℤ) := by
    intro s
    have hsymm : ∀ h : Fin p, eqv.symm (hm s h) = (s, h) := by
      intro h
      have h1 : hm s h = eqv (s, h) := rfl
      rw [h1, Equiv.symm_apply_apply]
    have hfh : ∀ h : Fin p, f (hm s h) = if (h : ℕ) < g s then (1 : ℤ) else 0 := by
      intro h
      rw [hf]
      simp only [hsymm h]
    rw [Finset.sum_congr rfl (fun h _ => hfh h)]
    rw [Fin.sum_univ_eq_sum_range (fun i => if i < g s then (1 : ℤ) else 0) p]
    rw [sum_range_ite_lt]
    rw [show min (g s) p = g s by have := hg_le s; omega]
  set A : mip_assignment p ns nf :=
    ⟨fun _ => 0, fun l => (t l : ℤ),
      fun s l => qabs (((l : ℕ) : ℚ) - (g s : ℚ)),
      fun s l => if g s = (l : ℕ) then 1 else 0, f⟩ with hA
  have hSS : ∀ s, mip_sample_sum hm A s = (g s : ℤ) := by
    intro s
    show (∑ h : Fin p, A.f (hm s h)) = (g s : ℤ)
    exact hSsum s
  refine ⟨A, ⟨?_, ?_, ?_, ?_, ?_, ?_, ?_, ?_, ?_, ?_, ?_, ?_⟩, ?_⟩
  · intro l
    exact le_refl 0
  · intro l
    exact Int.natCast_nonneg _
  · intro s l
    exact qabs_nonneg _
  · intro s l
    show (0 : ℤ) ≤ if g s = (l : ℕ) then 1 else 0
    split <;> omega
  · intro j
    constructor
    · show (0 : ℤ) ≤ if ((eqv.symm j).2 : ℕ) < g (eqv.symm j).1 then 1 else 0
      split <;> omega
    · show (if ((eqv.symm j).2 : ℕ) < g (eqv.symm j).1 then (1 : ℤ) else 0) ≤ 1
      split <;> omega
  · intro l
    show (t l : ℤ) = ∑ s : Fin ns, if g s = (l : ℕ) then (1 : ℤ) else 0
    rw [hg_count (l : ℕ), hcount_t l]
  · intro s
    show (∑ l : Fin (p + 1), if g s = (l : ℕ) then (1 : ℤ) else 0) = 1
    have hiff : ∀ l : Fin (p + 1), (g s = (l : ℕ)) ↔ (l = ⟨g s, hg_lt s⟩) := by
      intro l
      constructor
      · intro h
        exact Fin.ext h.symm
      · intro h
        rw [h]
    rw [Finset.sum_congr rfl (fun l _ => if_congr (hiff l) rfl rfl)]
    rw [Finset.sum_ite_eq' Finset.univ (⟨g s, hg_lt s⟩ : Fin (p + 1)) (fun _ => (1 : ℤ))]
    simp
  · intro s l
    rw [hSS s]
    show ((l : ℕ) : ℚ) - ((g s : ℤ) : ℚ) ≤ qabs (((l : ℕ) : ℚ) - (g s : ℚ))
    push_cast
    exact sub_le_qabs _ _
  · intro s l
    rw [hSS s]
    show ((g s : ℤ) : ℚ) - ((l : ℕ) : ℚ) ≤ qabs (((l : ℕ) : ℚ) - (g s : ℚ))
    push_cast
    exact sub_le_qabs_rev _ _
  · intro s l
    show qabs (((l : ℕ) : ℚ) - (g s : ℚ))
        ≤ (p : ℚ) * (1 - ((if g s = (l : ℕ) then (1 : ℤ) else 0 : ℤ) : ℚ))
    by_cases hgl : g s = (l : ℕ)
    · rw [if_pos hgl, hgl]
      norm_num [qabs]
    · rw [if_neg hgl]
      have h1 : ((l : ℕ) : ℚ) ≤ (p : ℚ) := by
        exact_mod_cast Nat.lt_succ_iff.mp l.isLt
      have h2 : ((g s : ℕ) : ℚ) ≤ (p : ℚ) := by
        exact_mod_cast hg_le s
      have h3 : (0 : ℚ) ≤ ((l : ℕ) : ℚ) := by positivity
      have h4 : (0 : ℚ) ≤ ((g s : ℕ) : ℚ) := by positivity
      unfold qabs
      push_cast
      split <;> linarith
  · intro l
    show ((t l : ℤ) : ℚ) - ((t l : ℕ) : ℚ) ≤ A.z l
    show ((t l : ℤ) : ℚ) - ((t l : ℕ) : ℚ) ≤ 0
    push_cast
    linarith
  · intro l
    show ((t l : ℕ) : ℚ) - ((t l : ℤ) : ℚ) ≤ A.z l
    show ((t l : ℕ) : ℚ) - ((t l : ℤ) : ℚ) ≤ 0
    push_cast
    linarith
  · show (∑ l : Fin (p + 1), A.z l) = 0
    simp [hA]

/-- The spec's scenario map: 2 samples, ploidy 2, 2 founders; both slots of
sample 0 map to founder 0 and both slots of sample 1 to founder 1. -/
def scenario_map : Fin 2 → Fin 2 → Fin 2 := fun s _ => s

/-- The spec's scenario target distribution `[1, 0, 1]`. -/
def scenario_target : Fin 3 → ℚ := ![1, 0, 1]

/-- The exact solution of the scenario: founder 0 at allele 0, founder 1 at
allele 1, sample dosages 0 and 2, counts `[1, 0, 1]`. -/
def scenario_assignment : mip_assignment 2 2 2 :=
  ⟨fun _ => 0, ![1, 0, 1],
    fun s l => qabs (((l : ℕ) : ℚ) - 2 * ((s : ℕ) : ℚ)),
    fun s l => if (l : ℕ) = 2 * (s : ℕ) then 1 else 0,
    fun j => ((j : ℕ) : ℤ)⟩

theorem scenario_feasible :
    mip_feasible scenario_map scenario_target scenario_assignment ∧
    mip_objective scenario_assignment = 0 := by
  have hS : ∀ s : Fin 2, mip_sample_sum scenario_map scenario_assignment s
      = 2 * ((s : ℕ) : ℤ) := by
    intro s
    rw [mip_sample_sum, Fin.sum_univ_two]
    show ((s : ℕ) : ℤ) + ((s : ℕ) : ℤ) = 2 * ((s : ℕ) : ℤ)
    ring
  constructor
  · refine ⟨?_, ?_, ?_, ?_, ?_, ?_, ?_, ?_, ?_, ?_, ?_, ?_⟩
    · intro l
      exact le_refl 0
    · intro l
      fin_cases l <;> norm_num [scenario_assignment]
    · intro s l
      exact qabs_nonneg _
    · intro s l
      show (0 : ℤ) ≤ if (l : ℕ) = 2 * (s : ℕ) then 1 else 0
      split <;> omega
    · intro j
      have hj := j.isLt
      constructor
      · show (0 : ℤ) ≤ ((j : ℕ) : ℤ)
        exact Int.natCast_nonneg _
      · show ((j : ℕ) : ℤ) ≤ 1
        omega
    · intro l
      show scenario_assignment.d l
          = ∑ s : Fin 2, if (l : ℕ) = 2 * (s : ℕ) then (1 : ℤ) else 0
      rw [Fin.sum_univ_two]
      fin_cases l <;> simp [scenario_assignment]
    · intro s
      show (∑ l : Fin 3, if (l : ℕ) = 2 * (s : ℕ) then (1 : ℤ) else 0) = 1
      rw [Fin.sum_univ_three]
      fin_cases s <;> simp
    · intro s l
      rw [hS s]
      show ((l : ℕ) : ℚ) - ((2 * ((s : ℕ) : ℤ) : ℤ) : ℚ)
          ≤ qabs (((l : ℕ) : ℚ) - 2 * ((s : ℕ) : ℚ))
      push_cast
      exact sub_le_qabs _ _
    · intro s l
      rw [hS s]
      show ((2 * ((s : ℕ) : ℤ) : ℤ) : ℚ) - ((l : ℕ) : ℚ)
          ≤ qabs (((l : ℕ) : ℚ) - 2 * ((s : ℕ) : ℚ))
      push_cast
      exact sub_le_qabs_rev _ _
    · intro s l
      show qabs (((l : ℕ) : ℚ) - 2 * ((s : ℕ) : ℚ))
          ≤ (2 : ℚ) * (1 - ((if (l : ℕ) = 2 * (s : ℕ) then (1 : ℤ) else 0 : ℤ) : ℚ))
      fin_cases s <;> fin_cases l <;> norm_num [qabs]
    · intro l
      show (scenario_assignment.d l : ℚ) - scenario_target l ≤ 0
      fin_cases l <;> norm_num [scenario_assignment, scenario_target]
    · intro l
      show scenario_target l - (scenario_assignment.d l : ℚ) ≤ 0
      fin_cases l <;> norm_num [scenario_assignment, scenario_target]
  · show (∑ l : Fin 3, (0 : ℚ)) = 0
    simp

theorem scenario_optimal (A : mip_assignment 2 2 2)
    (hopt : mip_optimal scenario_map scenario_target A) :
    mip_objective A = 0 ∧
      ((A.f 0 = 0 ∧ A.f 1 = 1) ∨ (A.f 0 = 1 ∧ A.f 1 = 0)) := by
  obtain ⟨h0, hd, _⟩ := mip_optimal_exact hopt
    ⟨scenario_assignment, scenario_feasible.1, scenario_feasible.2⟩
  refine ⟨h0, ?_⟩
  have hfeas := hopt.1
  have hS : ∀ s : Fin 2, mip_sample_sum scenario_map A s = 2 * A.f s := by
    intro s
    rw [mip_sample_sum, Fin.sum_univ_two]
    show A.f s + A.f s = 2 * A.f s
    ring
  have hcard : ∀ l : Fin 3, (mip_induced_distribution scenario_map A l : ℤ)
      = (if 2 * A.f 0 = ((l : ℕ) : ℤ) then 1 else 0)
        + (if 2 * A.f 1 = ((l : ℕ) : ℤ) then 1 else 0) := by
    intro l
    rw [mip_induced_distribution, Finset.card_filter]
    push_cast
    rw [Fin.sum_univ_two, hS 0, hS 1]
  have hd0 : A.d 0 = 1 := by
    have h := hd 0
    norm_num [scenario_target] at h
    exact_mod_cast h
  have hd2 : A.d 2 = 1 := by
    have h := hd 2
    norm_num [scenario_target] at h
    exact_mod_cast h
  have hi0 : A.d 0 = (mip_induced_distribution scenario_map A 0 : ℤ) :=
    mip_d_eq_induced hfeas 0
  have hi2 : A.d 2 = (mip_induced_distribution scenario_map A 2 : ℤ) :=
    mip_d_eq_induced hfeas 2
  have hc0 : (1 : ℤ) = (if 2 * A.f 0 = 0 then 1 else 0) + (if 2 * A.f 1 = 0 then 1 else 0) := by
    have h := hcard 0
    rw [← hi0, hd0] at h
    simpa using h
  have hc2 : (1 : ℤ) = (if 2 * A.f 0 = 2 then 1 else 0) + (if 2 * A.f 1 = 2 then 1 else 0) := by
    have h := hcard 2
    rw [← hi2, hd2] at h
    simpa using h
  have hb0 := hfeas.2.2.2.2.1 0
  have hb1 := hfeas.2.2.2.2.1 1
  have hf0 : A.f 0 = 0 ∨ A.f 0 = 1 := by omega
  have hf1 : A.f 1 = 0 ∨ A.f 1 = 1 := by omega
  rcases hf0 with h00 | h01 <;> rcases hf1 with h10 | h11
  · exfalso
    rw [h00, h10] at hc0
    norm_num at hc0
  · exact Or.inl ⟨h00, h11⟩
  · exact Or.inr ⟨h01, h10⟩
  · exfalso
    rw [h01, h11] at hc2
    norm_num at hc2

/-- C2 (amended): for every haplotype map in which each founder is mapped to
exactly one haplotype slot (`n_founders = n_samples * ploidy` with a
bijective slot-to-founder map) and every target distribution with
**non-negative integer** entries summing to `n_samples`, the MIP built by
`mip_fitting` admits a feasible assignment of objective 0, and every optimal
assignment — whose objective value `mip_fitting::fit` returns as the
distance and whose founder alleles it reads back — has distance 0, count
variables equal to the target, and an induced dosage distribution equal to
the target.  In particular, in the spec's scenario (ploidy 2, one marker,
target `[1, 0, 1]`, two founders, map sample0:[f0,f0], sample1:[f1,f1]),
every optimal assignment has distance 0 and founder alleles `f0 = 0, f1 = 1`
or the symmetric swap. -/
theorem mip_exact_fit (p ns nf : ℕ) (hm : Fin ns → Fin p → Fin nf)
    (t : Fin (p + 1) → ℕ)
    (hb : Function.Bijective (fun x : Fin ns × Fin p => hm x.1 x.2))
    (hsum : ∑ l, t l = ns) :
    ((∃ A, mip_feasible hm (fun l => ((t l : ℕ) : ℚ)) A ∧ mip_objective A = 0) ∧
     (∀ A, mip_optimal hm (fun l => ((t l : ℕ) : ℚ)) A →
        mip_objective A = 0 ∧ (∀ l, A.d l = ((t l : ℕ) : ℤ)) ∧
          (∀ l, mip_induced_distribution hm A l = t l))) ∧
    ((∃ A, mip_feasible scenario_map scenario_target A ∧ mip_objective A = 0) ∧
     (∀ A, mip_optimal scenario_map scenario_target A →
        mip_objective A = 0 ∧
          ((A.f 0 = 0 ∧ A.f 1 = 1) ∨ (A.f 0 = 1 ∧ A.f 1 = 0)))) := by
  refine ⟨⟨mip_exact_exists p ns nf hm t hb hsum, ?_⟩,
    ⟨scenario_assignment, scenario_feasible.1, scenario_feasible.2⟩, scenario_optimal⟩
  intro A hopt
  obtain ⟨h0, hd, hdist⟩ := mip_optimal_exact hopt (mip_exact_exists p ns nf hm t hb hsum)
  refine ⟨h0, fun l => ?_, fun l => ?_⟩
  · exact_mod_cast hd l
  · exact_mod_cast hdist l

theorem mip_exact_fit_witness :
    (Function.Bijective (fun x : Fin 1 × Fin 2 => (fun (_ : Fin 1) (h : Fin 2) => h) x.1 x.2) ∧
      (∑ l, (![1, 0, 0] : Fin 3 → ℕ) l) = 1) ∧
    (∃ A, mip_feasible (fun (_ : Fin 1) (h : Fin 2) => h)
        (fun l => (((![1, 0, 0] : Fin 3 → ℕ) l : ℕ) : ℚ)) A ∧
      mip_objective A = 0) :=
  ⟨⟨by decide, by decide⟩,
    (mip_exact_fit 2 1 2 (fun _ h => h) ![1, 0, 0] (by decide) (by decide)).1.1⟩

/-- The counterexample map: one sample, ploidy 2, two founders, slot `h`
mapped to founder `h` (a bijection, so `n_founders = n_samples * ploidy`). -/
def cex_map : Fin 1 → Fin 2 → Fin 2 := fun _ h => h

/-- A non-integral target with non-negative entries summing to
`n_samples = 1`. -/
def cex_target : Fin 3 → ℚ := ![1/2, 0, 1/2]

/-- C2 (counterexample to the claim as stated): `cex_map` is a bijection
founder↔slot and `cex_target` has non-negative entries summing to
`n_samples`, yet no feasible assignment of the MIP reaches objective 0 —
the dosage-count variables are integers, so the returned distance cannot be
0 and the induced distribution cannot equal the non-integral target. -/
theorem mip_nonintegral_cex :
    Function.Bijective (fun x : Fin 1 × Fin 2 => cex_map x.1 x.2) ∧
    (∀ l, 0 ≤ cex_target l) ∧ (∑ l, cex_target l) = ((1 : ℕ) : ℚ) ∧
    ¬ ∃ A : mip_assignment 2 1 2,
        mip_feasible cex_map cex_target A ∧ mip_objective A = 0 := by
  refine ⟨by decide, ?_, ?_, ?_⟩
  · intro l
    fin_cases l <;> norm_num [cex_target]
  · rw [Fin.sum_univ_three]
    norm_num [cex_target]
  · rintro ⟨A, hfeas, h0⟩
    have hz := mip_z_zero hfeas h0 0
    obtain ⟨_, _, _, _, _, _, _, _, _, _, hr1, hr2⟩ := hfeas
    have h1 := hr1 0
    have h2 := hr2 0
    rw [hz] at h1 h2
    norm_num [cex_target] at h1 h2
    have h2d : ((2 * A.d 0 : ℤ) : ℚ) = 1 := by
      push_cast
      linarith
    have h2d' : (2 * A.d 0 : ℤ) = 1 := by exact_mod_cast h2d
    omega
